import Mathlib

set_option maxHeartbeats 1000000

/-!
Verification of the gross-dictation text automaton: the cassette label
grammar and increment engine (`cassette.js` v1.9), the placeholder-field
navigator, the auto-advance hold heuristic, and the snapshot history tape
(`app.js`).

Strings are modelled as `List Char`: JS strings are sequences of UTF-16
code units, and every input of interest here is BMP text, where `Char.toNat`
coincides with the JS code-unit value, so JS character comparisons such as
`arr[i] < 'Z'` are `Char.toNat` comparisons.  JS numbers are modelled as
exact naturals/integers (`parseInt` of a digit capture, `n + 1`); this is
faithful below `2 ^ 53`.
-/

/-- The JS `\s` character class, which is also exactly the set of
characters removed by `String.prototype.trim` / `trimEnd`. -/
def isJsSpace (c : Char) : Bool :=
  c.toNat = 9 || c.toNat = 10 || c.toNat = 11 || c.toNat = 12 || c.toNat = 13 ||
  c.toNat = 32 || c.toNat = 0xa0 || c.toNat = 0x1680 ||
  (0x2000 ≤ c.toNat && c.toNat ≤ 0x200a) ||
  c.toNat = 0x2028 || c.toNat = 0x2029 || c.toNat = 0x202f ||
  c.toNat = 0x205f || c.toNat = 0x3000 || c.toNat = 0xfeff

/-- The JS `\d` character class. -/
def isDigitCh (c : Char) : Bool := 48 ≤ c.toNat && c.toNat ≤ 57

/-- The `[A-Z]` character class. -/
def isUpperCh (c : Char) : Bool := 65 ≤ c.toNat && c.toNat ≤ 90

/-- The dash variants accepted by the grammar: `-`, `–`, `—`. -/
def isDashCh (c : Char) : Bool := c.toNat = 45 || c.toNat = 0x2013 || c.toNat = 0x2014

/-- JS `trimEnd` (strips trailing `\s` characters). -/
def trimEndJs (l : List Char) : List Char := (l.reverse.dropWhile isJsSpace).reverse

/-- JS `trim` (strips leading and trailing `\s` characters). -/
def trimJs (l : List Char) : List Char :=
  ((l.dropWhile isJsSpace).reverse.dropWhile isJsSpace).reverse

/-- `parseInt(ds, 10)` on an all-digit capture: the decimal value. -/
def val10 (l : List Char) : Nat := l.foldl (fun a c => a * 10 + (c.toNat - 48)) 0

/-- Decimal rendering of a natural number (the JS template `${n}`),
written with explicit fuel so that it is structural (the fuel `n + 1`
always suffices since `n / 10 < n` for `n ≥ 10`). -/
def natDigitsAux : Nat → Nat → List Char → List Char
  | 0, _, acc => acc
  | fuel + 1, n, acc =>
    let d := Char.ofNat (48 + n % 10)
    if n < 10 then d :: acc else natDigitsAux fuel (n / 10) (d :: acc)

/-- Decimal rendering of a natural number. -/
def natDigits (n : Nat) : List Char := natDigitsAux (n + 1) n []

/-- The separator alternation `([\t\-–—]|:\s?|\s)`: ordered
alternatives, leftmost first; returns the captured separator and the rest
of the input.  (The separator is the final group of every pattern using it,
so no backtracking into it can occur.) -/
def matchSep : List Char → Option (List Char × List Char)
  | [] => none
  | c :: rest =>
    if c.toNat = 9 || isDashCh c then some ([c], rest)
    else if c.toNat = 58 then
      match rest with
      | d :: rest2 => if isJsSpace d then some ([c, d], rest2) else some ([c], rest)
      | [] => some ([c], [])
    else if isJsSpace c then some ([c], rest)
    else none

/-- `BLOCK_LN = /^([A-Z])(\d+)([\t\-–—]|:\s?|\s)/`.
Returns (letter, digits, separator, remaining input).  The `\d+` capture is
the maximal digit run: no separator character is a digit, so a shorter run
(which would be followed by a digit) can never complete the match. -/
def matchBlockLN : List Char → Option (Char × List Char × List Char × List Char)
  | [] => none
  | c :: rest =>
    if isUpperCh c then
      let ds := rest.takeWhile isDigitCh
      if ds.isEmpty then none
      else
        match matchSep (rest.dropWhile isDigitCh) with
        | some (sep, rest2) => some (c, ds, sep, rest2)
        | none => none
    else none

/-- Shared tail of `RANGE_LN`: the end-number digits followed by the
separator.  Returns (end digits, separator, remaining input). -/
def rangeEndLN (r : List Char) : Option (List Char × List Char × List Char) :=
  let ds2 := r.takeWhile isDigitCh
  if ds2.isEmpty then none
  else
    match matchSep (r.dropWhile isDigitCh) with
    | some (sep, rest) => some (ds2, sep, rest)
    | none => none

/-- `RANGE_LN = /^([A-Z])(\d+)[-–—]([A-Z])?(\d+)(sep)/`.
Returns (start letter, start digits, optional end letter, end digits,
separator, remaining input).  The optional end letter is taken greedily;
as in the regex, if taking it cannot be completed then the backtracked
alternative (no end letter, `\d+` starting at that letter) fails too. -/
def matchRangeLN : List Char → Option (Char × List Char × Option Char × List Char × List Char × List Char)
  | [] => none
  | c :: rest =>
    if isUpperCh c then
      let ds1 := rest.takeWhile isDigitCh
      if ds1.isEmpty then none
      else
        match rest.dropWhile isDigitCh with
        | d :: rest3 =>
          if isDashCh d then
            match rest3 with
            | e :: rest4 =>
              if isUpperCh e then
                match rangeEndLN rest4 with
                | some (ds2, sep, rest5) => some (c, ds1, some e, ds2, sep, rest5)
                | none => none
              else
                match rangeEndLN rest3 with
                | some (ds2, sep, rest5) => some (c, ds1, none, ds2, sep, rest5)
                | none => none
            | [] => none
          else none
        | [] => none
    else none

/-- Greedy candidate splits for `[A-Z]{1,2}`: longest first, as the regex
engine tries them. -/
def letters12 : List Char → List (List Char × List Char)
  | a :: b :: rest =>
    if isUpperCh a then
      if isUpperCh b then [([a, b], rest), ([a], b :: rest)] else [([a], b :: rest)]
    else []
  | [a] => if isUpperCh a then [([a], [])] else []
  | [] => []

/-- First alternative (in backtracking order) on which the continuation
succeeds. -/
def firstSome {α β : Type} (f : α → Option β) : List α → Option β
  | [] => none
  | x :: xs =>
    match f x with
    | some r => some r
    | none => firstSome f xs

/-- `BLOCK_NL = /^(\d+)([A-Z]{1,2})(sep)/`.
Returns (digits, letters, separator, remaining input). -/
def matchBlockNL (l : List Char) : Option (List Char × List Char × List Char × List Char) :=
  let ds := l.takeWhile isDigitCh
  if ds.isEmpty then none
  else
    firstSome
      (fun p =>
        match matchSep p.2 with
        | some (sep, rest2) => some (ds, p.1, sep, rest2)
        | none => none)
      (letters12 (l.dropWhile isDigitCh))

/-- Candidates for `(\d+)?`: maximal run first, then absent.  Intermediate
lengths cannot extend to a match because the next group is `[A-Z]{1,2}` and
the character after a shorter digit run is still a digit. -/
def optDigits (l : List Char) : List (List Char × List Char) :=
  let ds := l.takeWhile isDigitCh
  if ds.isEmpty then [([], l)] else [(ds, l.dropWhile isDigitCh), ([], l)]

/-- `RANGE_NL = /^(\d+)([A-Z]{1,2})[-–—](\d+)?([A-Z]{1,2})(sep)/`.
Returns (specimen digits, start suffix, end digits (`[]` if absent), end
suffix, separator, remaining input). -/
def matchRangeNL (l : List Char) : Option (List Char × List Char × List Char × List Char × List Char × List Char) :=
  let ds1 := l.takeWhile isDigitCh
  if ds1.isEmpty then none
  else
    firstSome
      (fun p1 =>
        match p1.2 with
        | d :: r2 =>
          if isDashCh d then
            firstSome
              (fun p2 =>
                firstSome
                  (fun p3 =>
                    match matchSep p3.2 with
                    | some (sep, rest) => some (ds1, p1.1, p2.1, p3.1, sep, rest)
                    | none => none)
                  (letters12 p2.2))
              (optDigits r2)
          else none
        | [] => none)
      (letters12 (l.dropWhile isDigitCh))

/-- `PLACEHOLDER_LINE_PATTERN = /^(\[[\s_]*\])([\t\-–—]|:\s?|\s)/`.
Returns (bracket group, separator, remaining input). -/
def matchPlaceholder : List Char → Option (List Char × List Char × List Char)
  | [] => none
  | c :: rest =>
    if c = '[' then
      let inner := rest.takeWhile (fun x => isJsSpace x || x = '_')
      match rest.dropWhile (fun x => isJsSpace x || x = '_') with
      | d :: rest2 =>
        if d = ']' then
          match matchSep rest2 with
          | some (sep, rest3) => some (c :: inner ++ [d], sep, rest3)
          | none => none
        else none
      | [] => none
    else none

/-- The two numbering formats (`FORMAT_LN = 'letter-number'`,
`FORMAT_NL = 'number-letter'`). -/
inductive Format
  | ln
  | nl
deriving DecidableEq

/-- Result of `parseBlockLine` in letter-number format.  The JS object also
carries `specimen`/`suffix` aliases equal to `letter`/`number`; the range
fields are `none` on a single block (absent in JS). -/
structure ParsedLN where
  letter : Char
  number : Nat
  separator : List Char
  raw : List Char
  isRange : Bool
  rangeStart : Option Nat := none
  startLetter : Option Char := none
deriving DecidableEq

/-- Result of `parseBlockLine` in number-letter format (`rangeStart` and
`startSuffix` are the same string in JS; both are kept). -/
structure ParsedNL where
  specimen : List Char
  suffix : List Char
  separator : List Char
  raw : List Char
  isRange : Bool
  rangeStart : Option (List Char) := none
  startSuffix : Option (List Char) := none
  startSpec : Option (List Char) := none
deriving DecidableEq

/-- A parsed cassette line, in whichever format was active. -/
inductive Parsed
  | ln (p : ParsedLN)
  | nl (p : ParsedNL)
deriving DecidableEq

/-- `parseBlockLine(line)`: trim the end, try the range pattern of the
active format, then the single-block pattern.  In LN format a range whose
end number is below its start number with equal letters is rejected; the
NL branch performs no such check. -/
def parseBlockLine (fmt : Format) (line : List Char) : Option Parsed :=
  let t := trimEndJs line
  match fmt with
  | .nl =>
    match matchRangeNL t with
    | some (specNum, startSuf, endNumOpt, endSuf, sep, rest) =>
      some (.nl {
        specimen := if endNumOpt.isEmpty then specNum else endNumOpt,
        suffix := endSuf,
        separator := sep,
        raw := t.take (t.length - rest.length),
        isRange := true,
        rangeStart := some startSuf,
        startSuffix := some startSuf,
        startSpec := some specNum })
    | none =>
      match matchBlockNL t with
      | some (ds, suf, sep, rest) =>
        some (.nl {
          specimen := ds, suffix := suf, separator := sep,
          raw := t.take (t.length - rest.length), isRange := false })
      | none => none
  | .ln =>
    match matchRangeLN t with
    | some (startL, ds1, endLOpt, ds2, sep, rest) =>
      let startNum := val10 ds1
      let endL := endLOpt.getD startL
      let endNum := val10 ds2
      if endNum < startNum ∧ endL = startL then none
      else
        some (.ln {
          letter := endL, number := endNum, separator := sep,
          raw := t.take (t.length - rest.length), isRange := true,
          rangeStart := some startNum, startLetter := some startL })
    | none =>
      match matchBlockLN t with
      | some (c, ds, sep, rest) =>
        some (.ln {
          letter := c, number := val10 ds, separator := sep,
          raw := t.take (t.length - rest.length), isRange := false })
      | none => none

/-- Inner loop of `nextLetterSuffix`, operating on the reversed suffix:
increment the first character below `'Z'`, resetting `'Z'`s to `'A'` on the
way; if everything was `'Z'`, an extra `'A'` appears (at the front of the
original string). -/
def bumpLetters : List Char → List Char
  | [] => ['A']
  | c :: rest =>
    if c.toNat < 90 then Char.ofNat (c.toNat + 1) :: rest else 'A' :: bumpLetters rest

/-- `nextLetterSuffix`: A→B, Z→AA, AZ→BA, ZZ→AAA. -/
def nextLetterSuffix (letters : List Char) : List Char :=
  (bumpLetters letters.reverse).reverse

/-- `normalizeSeparator`: empty/absent becomes `'-'`; a tab stays a tab;
anything else is returned unchanged. -/
def normalizeSeparator (sep : List Char) : List Char :=
  if sep.isEmpty then ['-'] else if sep = ['\t'] then ['\t'] else sep

/-- JS `overrideSep || parsed.separator` (an empty string is falsy). -/
def jsOrSep (o : Option (List Char)) (d : List Char) : List Char :=
  match o with
  | some s => if s.isEmpty then d else s
  | none => d

/-- `nextPrefix(parsed, overrideSep)`: the textual prefix of the block after
`parsed`.  The format/constructor mismatch cases cannot arise in the
program (the same `_format` governs parsing and generation). -/
def nextPrefix (fmt : Format) (p : Parsed) (overrideSep : Option (List Char)) : List Char :=
  match fmt, p with
  | .nl, .nl q =>
    q.specimen ++ nextLetterSuffix q.suffix ++ normalizeSeparator (jsOrSep overrideSep q.separator)
  | .ln, .ln q =>
    q.letter :: (natDigits (q.number + 1) ++ normalizeSeparator (jsOrSep overrideSep q.separator))
  | .ln, .nl _ => []
  | .nl, .ln _ => []

/-- JS `text.split('\n')` (never returns an empty list). -/
def splitLines : List Char → List (List Char)
  | [] => [[]]
  | c :: rest =>
    if c = '\n' then [] :: splitLines rest
    else
      match splitLines rest with
      | l :: ls => (c :: l) :: ls
      | [] => [[c]]

/-- The test `/^[\s\t]/` (the class equals `\s`). -/
def startsIndented (l : List Char) : Bool :=
  match l with
  | c :: _ => isJsSpace c
  | [] => false

/-- The test `PLACEHOLDER_LINE_PATTERN.test(line)`. -/
def isPlaceholderLine (l : List Char) : Bool := (matchPlaceholder l).isSome

/-- The backward scan of `findLastBlock` over the lines, last line first;
`i` is one more than the index of the head line.  Indented and placeholder
lines are skipped. -/
def findLastBlockRev (fmt : Format) : List (List Char) → Nat → Option (Parsed × Nat)
  | [], _ => none
  | l :: rest, i =>
    if startsIndented l then findLastBlockRev fmt rest (i - 1)
    else if isPlaceholderLine l then findLastBlockRev fmt rest (i - 1)
    else
      match parseBlockLine fmt l with
      | some p => some (p, i - 1)
      | none => findLastBlockRev fmt rest (i - 1)

/-- `findLastBlock(textarea, upToPos)`: scan the lines of the text before
the cursor upward for the nearest effective cassette block, returning the
parse and the line index. -/
def findLastBlock (fmt : Format) (textBefore : List Char) : Option (Parsed × Nat) :=
  let lines := splitLines textBefore
  findLastBlockRev fmt lines.reverse lines.length

/-- A bracket placeholder field: `{ start, end }` character offsets into
the buffer (`end` is a Lean keyword, so the second field is `stop`). -/
structure PlaceholderField where
  start : Nat
  stop : Nat
deriving DecidableEq

/-- Index of the first `']'` in a list (the end of a `[^\]]*` capture). -/
def findClose : List Char → Option Nat
  | [] => none
  | c :: rest => if c = ']' then some 0 else (findClose rest).map (fun k => k + 1)

/-- The scan of `/\[[^\]]*\]/g` via repeated `exec`: at a `'['`, the match
runs to the first following `']'` (`[^\]]*` cannot cross one); scanning
resumes after the match.  A `'['` with no `']'` anywhere after it ends the
scan (no later start position can have one either).  Written with fuel so
the recursion is structural; each step consumes at least one character, so
fuel equal to the text length always suffices. -/
def findAllFieldsAux : Nat → List Char → Nat → List PlaceholderField
  | 0, _, _ => []
  | _ + 1, [], _ => []
  | fuel + 1, c :: rest, i =>
    if c = '[' then
      match findClose rest with
      | some k =>
        ⟨i, i + k + 2⟩ :: findAllFieldsAux fuel (rest.drop (k + 1)) (i + k + 2)
      | none => []
    else findAllFieldsAux fuel rest (i + 1)

/-- `findAllFields(text)`: all `[...]` fields with start/end offsets. -/
def findAllFields (text : List Char) : List PlaceholderField :=
  findAllFieldsAux text.length text 0

/-- The runtime part of the auto-advance state touched by navigation. -/
structure AdvState where
  anchor : Int
  watchBack : Bool
  timerPending : Bool
deriving DecidableEq

/-- `goToNextField(fromPos)`: select the first field at or after `fromPos`,
wrapping to the first field; with no fields, clear the anchor and report
failure.  Returns (selection set, new state, returned boolean). -/
def goToNextField (text : List Char) (fromPos : Nat) (adv : AdvState) :
    Option (Nat × Nat) × AdvState × Bool :=
  let fields := findAllFields text
  match fields with
  | [] => (none, { adv with anchor := -1 }, false)
  | f0 :: _ =>
    let target := (fields.find? (fun f => fromPos ≤ f.start)).getD f0
    (some (target.start, target.stop),
     { anchor := (target.start : Int), watchBack := false, timerPending := false },
     true)

/-- The preference part of `fieldAdv` used by the hold heuristic. -/
structure FieldAdvCfg where
  contChars : List Char
  contWords : List (List Char)
  learned : List (List Char)

/-- ASCII case folding (`toLowerCase` on the characters appearing here). -/
def jsToLower (c : Char) : Char :=
  if 65 ≤ c.toNat ∧ c.toNat ≤ 90 then Char.ofNat (c.toNat + 32) else c

/-- The trailing-punctuation strip `replace(/[.,;:!?]+$/, '')`. -/
def isPunctCh (c : Char) : Bool :=
  c.toNat = 46 || c.toNat = 44 || c.toNat = 59 || c.toNat = 58 || c.toNat = 33 || c.toNat = 63

/-- Remove the maximal trailing run of `[.,;:!?]`. -/
def stripTrailingPunct (l : List Char) : List Char :=
  (l.reverse.dropWhile isPunctCh).reverse

-- JS `split(/\s+/)`: cut at each maximal whitespace run (a leading run
-- yields a leading empty token, a trailing run a trailing empty token).
-- `splitWsAux` is building a token (accumulator reversed); `splitWsSkip` has
-- just consumed part of a whitespace run.
mutual
def splitWsAux : List Char → List Char → List (List Char)
  | [], acc => [acc.reverse]
  | c :: rest, acc =>
    if isJsSpace c then acc.reverse :: splitWsSkip rest
    else splitWsAux rest (c :: acc)

def splitWsSkip : List Char → List (List Char)
  | [] => [[]]
  | c :: rest =>
    if isJsSpace c then splitWsSkip rest
    else splitWsAux rest [c]
end

/-- JS `s.split(/\s+/)`. -/
def splitWs (l : List Char) : List (List Char) := splitWsAux l []

/-- `shouldHoldAdvance(text)`: hold when the text is empty/whitespace, ends
in a continuation character, or its last word (lowercased, trailing
punctuation stripped) is a continuation or learned word. -/
def shouldHoldAdvance (cfg : FieldAdvCfg) (text : List Char) : Bool :=
  if text.isEmpty then true
  else
    let t := trimJs text
    if t.isEmpty then true
    else
      let lastChar := t.getLastD ' '
      if cfg.contChars.contains lastChar then true
      else
        let words := splitWs (t.map jsToLower)
        let lastWord := stripTrailingPunct (words.getLastD [])
        if cfg.contWords.any (fun w => w.map jsToLower = lastWord) then true
        else if cfg.learned.any (fun w => w.map jsToLower = lastWord) then true
        else false

/-- A history tape entry `{ text, timestamp, label }` (timestamps are
opaque and supplied by the caller). -/
structure HistEntry where
  text : List Char
  timestamp : Nat
  label : String
deriving DecidableEq

/-- The history tape state: the tape, the position index (`-1` = empty)
and the restore re-entrancy guard. -/
structure HistState where
  tape : List HistEntry
  idx : Int
  restoring : Bool
deriving DecidableEq

/-- `_MAX_HISTORY`. -/
def MAX_HISTORY : Nat := 500

/-- The editable buffer together with its selection. -/
structure Buffer where
  text : List Char
  selStart : Nat
  selEnd : Nat
deriving DecidableEq

/-- The cap loop `while (tape.length > MAX) { tape.shift(); idx--; }`,
written with fuel (the initial length always suffices since each iteration
shortens the tape). -/
def capTapeFuel : Nat → List HistEntry → Int → List HistEntry × Int
  | 0, tape, idx => (tape, idx)
  | fuel + 1, tape, idx =>
    if tape.length > MAX_HISTORY then capTapeFuel fuel tape.tail (idx - 1) else (tape, idx)

/-- Evict oldest entries until the tape fits, decrementing the index. -/
def capTape (tape : List HistEntry) (idx : Int) : List HistEntry × Int :=
  capTapeFuel tape.length tape idx

/-- The de-duplication test of `recordSnapshot`:
`_historyIdx >= 0 && _historyTape[_historyIdx].text === text`. -/
def dedupeHit (st : HistState) (curText : List Char) : Prop :=
  0 ≤ st.idx ∧ (st.tape.get? st.idx.toNat).map (fun e => e.text) = some curText

instance (st : HistState) (curText : List Char) : Decidable (dedupeHit st curText) :=
  inferInstanceAs (Decidable (_ ∧ _))

/-- `recordSnapshot(label)` on the current buffer text: skip during
restore; skip when identical to the entry at the index; truncate the redo
branch, append, and cap the length. -/
def recordSnapshot (now : Nat) (label : String) (curText : List Char) (st : HistState) :
    HistState :=
  if st.restoring then st
  else if dedupeHit st curText then st
  else
    let tape1 :=
      if st.idx < (st.tape.length : Int) - 1 then st.tape.take (st.idx + 1).toNat else st.tape
    let tape2 := tape1 ++ [{ text := curText, timestamp := now, label := label }]
    let r := capTape tape2 ((tape2.length : Int) - 1)
    { tape := r.1, idx := r.2, restoring := st.restoring }

/-- `restoreHistoryState(snap)`: replace the buffer text and put the caret
at its end (the re-entrancy flag is raised and lowered within the call, so
the history state is unchanged). -/
def restoreHistoryState (snap : HistEntry) (_buf : Buffer) : Buffer :=
  { text := snap.text, selStart := snap.text.length, selEnd := snap.text.length }

/-- The divergence test at the top of `undoAction`:
`_historyIdx < 0 || cur !== _historyTape[_historyIdx].text`. -/
def undoDiverged (st : HistState) (curText : List Char) : Prop :=
  st.idx < 0 ∨ (st.tape.get? st.idx.toNat).map (fun e => e.text) ≠ some curText

instance (st : HistState) (curText : List Char) : Decidable (undoDiverged st curText) :=
  inferInstanceAs (Decidable (_ ∨ _))

/-- The label of the snapshot recorded by `undoAction`. -/
def preUndoLabel : String := "pre-undo"

/-- The history state after `undoAction`'s opening
`if (...) recordSnapshot('pre-undo')`. -/
def preUndoState (buf : Buffer) (now : Nat) (st : HistState) : HistState :=
  if undoDiverged st buf.text then recordSnapshot now preUndoLabel buf.text st else st

/-- `undoAction()`: capture unsaved work as a pre-undo snapshot, then move
the index back and restore, or report nothing-to-undo at the tape start.
Returns (history state, buffer, returned boolean).  The out-of-range tape
access is unreachable under the tape invariant. -/
def undoAction (buf : Buffer) (now : Nat) (st : HistState) : HistState × Buffer × Bool :=
  let st1 := preUndoState buf now st
  if st1.idx ≤ 0 then (st1, buf, false)
  else
    let st2 : HistState := { st1 with idx := st1.idx - 1 }
    match st2.tape.get? st2.idx.toNat with
    | some e => (st2, restoreHistoryState e buf, true)
    | none => (st2, buf, true)

/-- `redoAction()`: move the index forward and restore, or report
nothing-to-redo at the tape end. -/
def redoAction (buf : Buffer) (st : HistState) : HistState × Buffer × Bool :=
  if (st.tape.length : Int) - 1 ≤ st.idx then (st, buf, false)
  else
    let st2 : HistState := { st with idx := st.idx + 1 }
    match st2.tape.get? st2.idx.toNat with
    | some e => (st2, restoreHistoryState e buf, true)
    | none => (st2, buf, true)

/-- `restoreHistoryEntry(idx)`: reject out-of-range indices, otherwise jump
the index there and restore. -/
def restoreHistoryEntry (i : Int) (buf : Buffer) (st : HistState) : HistState × Buffer :=
  if i < 0 ∨ (st.tape.length : Int) ≤ i then (st, buf)
  else
    match st.tape.get? i.toNat with
    | some e => ({ st with idx := i }, restoreHistoryState e buf)
    | none => ({ st with idx := i }, buf)

/-- The history-tape well-formedness invariant: the index stays in
`[-1, length)` and is `-1` exactly on the empty tape. -/
def HistInv (st : HistState) : Prop :=
  -1 ≤ st.idx ∧ st.idx < (st.tape.length : Int) ∧ (st.idx = -1 ↔ st.tape = [])

/-- The engine's record of its last insertion (`lastAutoInsert`). -/
structure LastAutoInsert where
  inserted : List Char
  length : Nat
deriving DecidableEq

/-- `handleUndo(textarea)`: if the text just before the cursor equals the
recorded insertion, delete it, move the caret to the deletion point and
clear the record; otherwise change nothing and return false. -/
def handleUndo (buf : Buffer) (la : Option LastAutoInsert) :
    Buffer × Option LastAutoInsert × Bool :=
  match la with
  | none => (buf, none, false)
  | some r =>
    let pos := buf.selStart
    if pos < r.length then (buf, some r, false)
    else if (buf.text.take pos).drop (pos - r.length) = r.inserted then
      ({ text := buf.text.take (pos - r.length) ++ buf.text.drop pos,
         selStart := pos - r.length, selEnd := pos - r.length },
       none, true)
    else (buf, some r, false)

/-- Case-insensitive equality of two words (the specification's
"case-insensitively equals"). -/
def eqCaseInsensitive (a b : List Char) : Prop := a.map jsToLower = b.map jsToLower

/-- The last whitespace-delimited token of a string. -/
def lastWsToken (t : List Char) : List Char := (splitWs t).getLastD []

/-- The hold condition exactly as the specification words it: an empty or
whitespace-only string is held; otherwise the string is held iff its
trimmed form ends in a configured continuation character, or its last
whitespace-delimited token with trailing punctuation stripped
case-insensitively equals some configured continuation word or learned
word. -/
def holdSpec (cfg : FieldAdvCfg) (text : List Char) : Prop :=
  trimJs text = [] ∨
  ((trimJs text).getLastD ' ' ∈ cfg.contChars ∨
    ∃ w, (w ∈ cfg.contWords ∨ w ∈ cfg.learned) ∧
      eqCaseInsensitive (stripTrailingPunct (lastWsToken (trimJs text))) w)

/-- The specification's example buffer `"intro [___] middle [x] end"`. -/
def fieldDemoText : List Char :=
  ['i', 'n', 't', 'r', 'o', ' ', '[', '_', '_', '_', ']', ' ',
   'm', 'i', 'd', 'd', 'l', 'e', ' ', '[', 'x', ']', ' ', 'e', 'n', 'd']

/-! ### Character-class facts -/

lemma toNat_Char_ofNat (n : Nat) (h : n.isValidChar) : (Char.ofNat n).toNat = n := by
  simp only [Char.ofNat, h, dif_pos]
  rfl

lemma isJsSpace_false_of_visible (c : Char) (h1 : 33 ≤ c.toNat) (h2 : c.toNat ≤ 126) :
    isJsSpace c = false := by
  simp only [isJsSpace, Bool.or_eq_false_iff, Bool.and_eq_false_iff,
    decide_eq_false_iff_not, not_le]
  omega

lemma dash_or_colon_facts (s : Char) (hs : isDashCh s = true ∨ s = ':') :
    isDigitCh s = false ∧ isJsSpace s = false ∧ s.toNat ≠ 9 := by
  have hcodes : s.toNat = 45 ∨ s.toNat = 8211 ∨ s.toNat = 8212 ∨ s.toNat = 58 := by
    rcases hs with h | h
    · simp only [isDashCh, Bool.or_eq_true, decide_eq_true_eq] at h
      omega
    · subst h
      right; right; right; rfl
  refine ⟨?_, ?_, ?_⟩
  · simp only [isDigitCh, Bool.and_eq_false_iff, decide_eq_false_iff_not, not_le]
    omega
  · simp only [isJsSpace, Bool.or_eq_false_iff, Bool.and_eq_false_iff,
      decide_eq_false_iff_not, not_le]
    omega
  · omega

/-! ### C2: the letter-suffix odometer -/

lemma bumpLetters_replicate (k : Nat) (r : List Char) :
    bumpLetters (List.replicate k 'Z' ++ r) = List.replicate k 'A' ++ bumpLetters r := by
  induction k with
  | zero => simp
  | succ n ih =>
    rw [List.replicate_succ, List.cons_append, bumpLetters, if_neg (by decide), ih]
    simp [List.replicate_succ]

/-- C2: `nextLetterSuffix` implements the odometer rule on non-empty
uppercase strings: a last character below `'Z'` is incremented in place;
otherwise the trailing `'Z'`s reset to `'A'` with the carry moving left,
prepending an `'A'` when the string is all `'Z'`s; in particular
`Z → AA`, `AZ → BA`, `ZZ → AAA`. -/
theorem c2_next_letter_suffix_odometer :
    (∀ (xs : List Char) (c : Char), (∀ x ∈ xs, isUpperCh x = true) →
        isUpperCh c = true → c.toNat < 90 →
        nextLetterSuffix (xs ++ [c]) = xs ++ [Char.ofNat (c.toNat + 1)]) ∧
    (∀ (xs : List Char) (c : Char) (k : Nat), (∀ x ∈ xs, isUpperCh x = true) →
        isUpperCh c = true → c.toNat < 90 →
        nextLetterSuffix (xs ++ c :: List.replicate (k + 1) 'Z')
          = xs ++ Char.ofNat (c.toNat + 1) :: List.replicate (k + 1) 'A') ∧
    (∀ k : Nat, nextLetterSuffix (List.replicate (k + 1) 'Z') = List.replicate (k + 2) 'A') ∧
    nextLetterSuffix ['Z'] = ['A', 'A'] ∧
    nextLetterSuffix ['A', 'Z'] = ['B', 'A'] ∧
    nextLetterSuffix ['Z', 'Z'] = ['A', 'A', 'A'] := by
  refine ⟨?_, ?_, ?_, by decide, by decide, by decide⟩
  · intro xs c _ _ hc
    simp [nextLetterSuffix, bumpLetters, hc]
  · intro xs c k _ _ hc
    have h1 : (xs ++ c :: List.replicate (k + 1) 'Z').reverse
        = List.replicate (k + 1) 'Z' ++ (c :: xs.reverse) := by
      simp
    rw [nextLetterSuffix, h1, bumpLetters_replicate]
    simp [bumpLetters, hc]
  · intro k
    have h1 : (List.replicate (k + 1) 'Z').reverse = List.replicate (k + 1) 'Z' := by
      simp
    rw [nextLetterSuffix, h1, show (List.replicate (k + 1) 'Z')
        = List.replicate (k + 1) 'Z' ++ [] by simp, bumpLetters_replicate]
    simp only [bumpLetters, List.reverse_append, List.reverse_replicate]
    simp [List.replicate_succ]

/-- Witness for C2 at `xs = "A"`, `c = 'A'`. -/
theorem c2_next_letter_suffix_witness :
    nextLetterSuffix (['A'] ++ ['A']) = ['A'] ++ [Char.ofNat ('A'.toNat + 1)] :=
  c2_next_letter_suffix_odometer.1 ['A'] 'A' (by decide) (by decide) (by decide)

/-! ### C9: undo of the last automatic insertion -/

/-- C9: `handleUndo` removes exactly the recorded insertion when the text
just before the cursor equals it (cursor moved to the removal point, record
cleared, `true` returned); with no record, a cursor too close to the start,
or mismatching text it returns `false` and changes nothing. -/
theorem c9_handle_undo_cases :
    (∀ buf : Buffer, handleUndo buf none = (buf, none, false)) ∧
    (∀ (buf : Buffer) (r : LastAutoInsert), buf.selStart < r.length →
        handleUndo buf (some r) = (buf, some r, false)) ∧
    (∀ (buf : Buffer) (r : LastAutoInsert), r.length ≤ buf.selStart →
        (buf.text.take buf.selStart).drop (buf.selStart - r.length) ≠ r.inserted →
        handleUndo buf (some r) = (buf, some r, false)) ∧
    (∀ (buf : Buffer) (r : LastAutoInsert), r.length ≤ buf.selStart →
        (buf.text.take buf.selStart).drop (buf.selStart - r.length) = r.inserted →
        handleUndo buf (some r) =
          ({ text := buf.text.take (buf.selStart - r.length) ++ buf.text.drop buf.selStart,
             selStart := buf.selStart - r.length, selEnd := buf.selStart - r.length },
           none, true) ∧
        (buf.selStart ≤ buf.text.length →
          buf.text = buf.text.take (buf.selStart - r.length) ++ r.inserted
            ++ buf.text.drop buf.selStart)) := by
  refine ⟨fun buf => rfl, ?_, ?_, ?_⟩
  · intro buf r h
    simp [handleUndo, h]
  · intro buf r h hne
    rw [handleUndo, if_neg (by omega), if_neg hne]
  · intro buf r h heq
    constructor
    · rw [handleUndo, if_neg (by omega), if_pos heq]
    · intro _
      have h2 : List.take buf.selStart buf.text
          = List.take (buf.selStart - r.length) buf.text ++ r.inserted := by
        conv_lhs => rw [← List.take_append_drop (buf.selStart - r.length)
          (List.take buf.selStart buf.text)]
        rw [heq, List.take_take, min_eq_left (by omega)]
      conv_lhs => rw [← List.take_append_drop buf.selStart buf.text]
      rw [h2, List.append_assoc]

/-- Witness for C9: deleting a just-inserted `"A2-"` before the cursor. -/
theorem c9_handle_undo_witness :
    handleUndo { text := ['X', 'A', '2', '-'], selStart := 4, selEnd := 4 }
        (some { inserted := ['A', '2', '-'], length := 3 })
      = ({ text := ['X'], selStart := 1, selEnd := 1 }, none, true) :=
  ((c9_handle_undo_cases.2.2.2
      { text := ['X', 'A', '2', '-'], selStart := 4, selEnd := 4 }
      { inserted := ['A', '2', '-'], length := 3 }
      (by decide) (by decide)).1).trans (by decide)

/-! ### Scanning helper lemmas for the grammar proofs -/

lemma takeWhile_all_append (p : Char → Bool) :
    ∀ (ds rest : List Char), (∀ c ∈ ds, p c = true) →
      (∀ c, rest.head? = some c → p c = false) →
      (ds ++ rest).takeWhile p = ds ∧ (ds ++ rest).dropWhile p = rest := by
  intro ds
  induction ds with
  | nil =>
    intro rest _ h2
    cases rest with
    | nil => exact ⟨rfl, rfl⟩
    | cons a as =>
      have ha := h2 a rfl
      simp [List.takeWhile_cons, List.dropWhile_cons, ha]
  | cons d ds ih =>
    intro rest h1 h2
    have hd := h1 d (by simp)
    have hih := ih rest (fun c hc => h1 c (by simp [hc])) h2
    simp [List.takeWhile_cons, List.dropWhile_cons, hd, hih.1, hih.2]

lemma trimEndJs_append (y : List Char) (s : Char) (rest : List Char)
    (hs : isJsSpace s = false) :
    trimEndJs (y ++ s :: rest) = (y ++ [s]) ++ trimEndJs rest := by
  have hsplit : y ++ s :: rest = (y ++ [s]) ++ rest := by simp
  rw [hsplit]
  unfold trimEndJs
  rw [List.reverse_append, List.dropWhile_append]
  by_cases h : (rest.reverse.dropWhile isJsSpace).isEmpty
  · rw [if_pos h]
    rw [List.isEmpty_iff] at h
    rw [h]
    have h2 : (y ++ [s]).reverse = s :: y.reverse := by simp
    rw [h2, List.dropWhile_cons]
    simp [hs]
  · rw [if_neg h]
    simp

lemma matchSep_cons_some (s : Char) (r : List Char) (hs : isDashCh s = true ∨ s = ':') :
    ∃ pr : List Char × List Char, matchSep (s :: r) = some pr := by
  rcases hs with hdash | hcolon
  · exact ⟨([s], r), by simp [matchSep, hdash]⟩
  · subst hcolon
    cases r with
    | nil => exact ⟨([':'], []), rfl⟩
    | cons a as =>
      by_cases ha : isJsSpace a
      · exact ⟨([':', a], as), by simp [matchSep, isDashCh, ha]⟩
      · exact ⟨([':'], a :: as), by simp [matchSep, isDashCh, ha]⟩

/-! ### C1: next label of a single-block line -/

/-- C1 counterexample: the single-block line `"A1: "` (uppercase letter
`A`, digits `1`, grammar separator `": "`) is parsed after `trimEnd`, so
the produced next label is `"A2:"`, not `"A2: "` with the same separator;
and the bare lines `"A1 "` and `"A1\t"` (space/tab separators) do not
parse at all. -/
theorem c1_next_label_counterexample :
    (parseBlockLine .ln ['A', '1', ':', ' ']).map (fun p => nextPrefix .ln p none)
      = some ['A', '2', ':'] ∧
    (['A', '2', ':'] : List Char) ≠ ['A', '2', ':', ' '] ∧
    parseBlockLine .ln ['A', '1', '\t'] = none ∧
    parseBlockLine .ln ['A', '1', ' '] = none := by
  refine ⟨?_, by decide, by decide, by decide⟩
  decide

/-- C1 (amended): for every single-block line `L<ds><s>` whose separator
`s` is a dash variant or a bare colon (the separators containing no
whitespace — a trailing whitespace separator is removed by the `trimEnd`
preceding the match), `nextPrefix (parseBlockLine line)` is exactly the
letter, the incremented number, and the same separator. -/
theorem c1_next_label_of_single_block
    (L s : Char) (ds : List Char)
    (hL : isUpperCh L = true)
    (hds : ds ≠ []) (hdig : ∀ c ∈ ds, isDigitCh c = true)
    (hs : isDashCh s = true ∨ s = ':')
    (_hsmall : val10 ds < 2 ^ 53) :
    ∃ p, parseBlockLine .ln (L :: (ds ++ [s])) = some p ∧
      nextPrefix .ln p none = L :: (natDigits (val10 ds + 1) ++ [s]) := by
  obtain ⟨hsd, hsw, hs9⟩ := dash_or_colon_facts s hs
  have hdsE : ds.isEmpty = false := by
    cases ds with
    | nil => exact absurd rfl hds
    | cons a as => rfl
  have htw := takeWhile_all_append isDigitCh ds [s] hdig
    (fun c hc => by
      simp only [List.head?_cons, Option.some.injEq] at hc
      exact hc ▸ hsd)
  have htrim : trimEndJs (L :: (ds ++ [s])) = L :: (ds ++ [s]) := by
    have := trimEndJs_append (L :: ds) s [] hsw
    simpa using this
  have hrange : matchRangeLN (L :: (ds ++ [s])) = none := by
    rw [matchRangeLN]
    simp only [hL, if_true, htw.1, htw.2, hdsE, Bool.false_eq_true, if_false]
    rcases hs with hdash | hcolon
    · simp [hdash]
    · subst hcolon
      simp [isDashCh]
  have hsep : matchSep [s] = some ([s], []) := by
    rcases hs with hdash | hcolon
    · simp [matchSep, hdash]
    · subst hcolon
      rfl
  have hblock : matchBlockLN (L :: (ds ++ [s])) = some (L, ds, [s], []) := by
    rw [matchBlockLN]
    simp only [hL, if_true, htw.1, htw.2, hdsE, Bool.false_eq_true, if_false, hsep]
  have hst : s ≠ '\t' := by
    intro h
    rw [h] at hs9
    exact hs9 rfl
  refine ⟨.ln { letter := L, number := val10 ds, separator := [s],
                raw := L :: (ds ++ [s]), isRange := false }, ?_, ?_⟩
  · rw [parseBlockLine]
    simp only [htrim, hrange, hblock]
    simp [List.take_length]
  · rw [nextPrefix]
    have hns : normalizeSeparator (jsOrSep none [s]) = [s] := by
      rw [jsOrSep, normalizeSeparator]
      simp [hst]
    rw [hns]

/-- Witness for C1 at the line `"A1-"`. -/
theorem c1_next_label_witness :
    ∃ p, parseBlockLine .ln ('A' :: (['1'] ++ ['-'])) = some p ∧
      nextPrefix .ln p none = 'A' :: (natDigits (val10 ['1'] + 1) ++ ['-']) :=
  c1_next_label_of_single_block 'A' '-' ['1'] (by decide) (by decide)
    (by decide) (Or.inl (by decide)) (by decide)

/-! ### C3: range validation -/

/-- C3 counterexample: in NumberLetter format the decreasing range
`"1C-1A-"` (end suffix `A` before start suffix `C`, equal specimen `1`)
parses successfully instead of returning null — the NL branch has no
end-before-start check; and in LetterNumber format the bare decreasing
range `"B3-B1\t"` (tab separator) also parses (as the single block `B3`)
because `trimEnd` removes the tab before matching. -/
theorem c3_range_counterexample :
    parseBlockLine .nl ['1', 'C', '-', '1', 'A', '-'] ≠ none ∧
    parseBlockLine .ln ['B', '3', '-', 'B', '1', '\t'] ≠ none := by
  refine ⟨?_, ?_⟩ <;> decide

/-- C3 (amended): in LetterNumber format, every range line
`L<ds1><dash>L<ds2><s>...` with equal letters and end number below start
number parses to null, provided the separator `s` after the end number is a
dash variant or colon (whitespace separators at the very end of a line are
removed by `trimEnd`, making such a bare line reparse as a single block).
In NumberLetter format no end-before-start check is performed: `"1C-1A-"`
parses to a range object.  The equivalent spellings `"A5-A10-"` and
`"A5-10-"` both parse, with next label `"A11-"`. -/
theorem c3_range_validation_amended :
    (∀ (L d s : Char) (ds1 ds2 rest : List Char),
        isUpperCh L = true → isDashCh d = true →
        ds1 ≠ [] → (∀ c ∈ ds1, isDigitCh c = true) →
        ds2 ≠ [] → (∀ c ∈ ds2, isDigitCh c = true) →
        (isDashCh s = true ∨ s = ':') →
        val10 ds2 < val10 ds1 →
        parseBlockLine .ln (L :: (ds1 ++ d :: L :: (ds2 ++ s :: rest))) = none) ∧
    parseBlockLine .nl ['1', 'C', '-', '1', 'A', '-']
      = some (.nl { specimen := ['1'], suffix := ['A'], separator := ['-'],
                    raw := ['1', 'C', '-', '1', 'A', '-'], isRange := true,
                    rangeStart := some ['C'], startSuffix := some ['C'],
                    startSpec := some ['1'] }) ∧
    (parseBlockLine .ln ['A', '5', '-', 'A', '1', '0', '-']).map
        (fun p => nextPrefix .ln p none) = some ['A', '1', '1', '-'] ∧
    (parseBlockLine .ln ['A', '5', '-', '1', '0', '-']).map
        (fun p => nextPrefix .ln p none) = some ['A', '1', '1', '-'] := by
  refine ⟨?_, by decide, by decide, by decide⟩
  intro L d s ds1 ds2 rest hL hd hds1 hdig1 hds2 hdig2 hs hlt
  obtain ⟨hdd, hdw, _⟩ := dash_or_colon_facts d (Or.inl hd)
  obtain ⟨hsd, hsw, _⟩ := dash_or_colon_facts s hs
  have hds1E : ds1.isEmpty = false := by
    cases ds1 with
    | nil => exact absurd rfl hds1
    | cons a as => rfl
  have hds2E : ds2.isEmpty = false := by
    cases ds2 with
    | nil => exact absurd rfl hds2
    | cons a as => rfl
  -- trimEnd keeps everything up to and including `s`
  have htrim : trimEndJs (L :: (ds1 ++ d :: L :: (ds2 ++ s :: rest)))
      = (L :: (ds1 ++ d :: L :: ds2)) ++ s :: trimEndJs rest := by
    have h := trimEndJs_append (L :: (ds1 ++ d :: L :: ds2)) s rest hsw
    have hshape : (L :: (ds1 ++ d :: L :: ds2)) ++ s :: rest
        = L :: (ds1 ++ d :: L :: (ds2 ++ s :: rest)) := by simp
    rw [hshape] at h
    rw [h]
    simp
  set rest2 := trimEndJs rest with hrest2
  have htw1 := takeWhile_all_append isDigitCh ds1 (d :: L :: (ds2 ++ s :: rest2)) hdig1
    (fun c hc => by
      simp only [List.head?_cons, Option.some.injEq] at hc
      exact hc ▸ hdd)
  have htw2 := takeWhile_all_append isDigitCh ds2 (s :: rest2) hdig2
    (fun c hc => by
      simp only [List.head?_cons, Option.some.injEq] at hc
      exact hc ▸ hsd)
  obtain ⟨⟨sep, rr⟩, hsep⟩ := matchSep_cons_some s rest2 hs
  have hre : rangeEndLN (ds2 ++ s :: rest2) = some (ds2, sep, rr) := by
    rw [rangeEndLN]
    simp only [htw2.1, htw2.2, hds2E, Bool.false_eq_true, if_false, hsep]
  have hshape2 : (L :: (ds1 ++ d :: L :: ds2)) ++ s :: rest2
      = L :: (ds1 ++ d :: L :: (ds2 ++ s :: rest2)) := by simp
  have hrange : matchRangeLN ((L :: (ds1 ++ d :: L :: ds2)) ++ s :: rest2)
      = some (L, ds1, some L, ds2, sep, rr) := by
    rw [hshape2, matchRangeLN]
    simp only [hL, if_true, htw1.1, htw1.2, hds1E, Bool.false_eq_true, if_false, hd,
      hre]
  rw [parseBlockLine]
  simp only [htrim, hrange]
  rw [if_pos ⟨by simpa using hlt, by simp⟩]

/-- Witness for C3 at the decreasing range line `"B3-B1-"`. -/
theorem c3_range_validation_witness :
    parseBlockLine .ln ('B' :: (['3'] ++ '-' :: 'B' :: (['1'] ++ '-' :: []))) = none :=
  c3_range_validation_amended.1 'B' '-' '-' ['3'] ['1'] [] (by decide) (by decide)
    (by decide) (by decide) (by decide) (by decide) (Or.inl (by decide)) (by decide)

/-! ### C7: the hold heuristic -/

lemma jsToLower_toNat (c : Char) (h1 : 65 ≤ c.toNat) (h2 : c.toNat ≤ 90) :
    (jsToLower c).toNat = c.toNat + 32 := by
  rw [jsToLower, if_pos ⟨h1, h2⟩]
  exact toNat_Char_ofNat _ (Or.inl (by omega))

lemma isJsSpace_jsToLower (c : Char) : isJsSpace (jsToLower c) = isJsSpace c := by
  by_cases h : 65 ≤ c.toNat ∧ c.toNat ≤ 90
  · have ht := jsToLower_toNat c h.1 h.2
    have ha : isJsSpace (jsToLower c) = false :=
      isJsSpace_false_of_visible _ (by omega) (by omega)
    have hb : isJsSpace c = false :=
      isJsSpace_false_of_visible _ (by omega) (by omega)
    rw [ha, hb]
  · rw [jsToLower, if_neg h]

lemma isPunctCh_jsToLower (c : Char) : isPunctCh (jsToLower c) = isPunctCh c := by
  by_cases h : 65 ≤ c.toNat ∧ c.toNat ≤ 90
  · have ht := jsToLower_toNat c h.1 h.2
    have ha : isPunctCh (jsToLower c) = false := by
      simp only [isPunctCh, Bool.or_eq_false_iff, decide_eq_false_iff_not]
      omega
    have hb : isPunctCh c = false := by
      simp only [isPunctCh, Bool.or_eq_false_iff, decide_eq_false_iff_not]
      omega
    rw [ha, hb]
  · rw [jsToLower, if_neg h]

lemma stripTrailingPunct_map_lower (l : List Char) :
    stripTrailingPunct (l.map jsToLower) = (stripTrailingPunct l).map jsToLower := by
  have hp : (isPunctCh ∘ jsToLower) = isPunctCh := funext isPunctCh_jsToLower
  unfold stripTrailingPunct
  rw [← List.map_reverse, List.dropWhile_map, hp, List.map_reverse]

lemma splitWs_parts_map (f : Char → Char) (hf : ∀ c, isJsSpace (f c) = isJsSpace c) :
    ∀ l : List Char,
      (∀ acc : List Char,
        splitWsAux (l.map f) (acc.map f) = (splitWsAux l acc).map (List.map f)) ∧
      splitWsSkip (l.map f) = (splitWsSkip l).map (List.map f) := by
  intro l
  induction l with
  | nil =>
    constructor
    · intro acc
      simp [splitWsAux, List.map_reverse]
    · simp [splitWsSkip]
  | cons c rest ih =>
    constructor
    · intro acc
      rw [List.map_cons, splitWsAux, splitWsAux, hf c]
      by_cases hc : isJsSpace c
      · rw [if_pos hc, if_pos hc, ih.2]
        simp [List.map_reverse]
      · rw [if_neg hc, if_neg hc]
        have h := ih.1 (c :: acc)
        simpa using h
    · rw [List.map_cons, splitWsSkip, splitWsSkip, hf c]
      by_cases hc : isJsSpace c
      · rw [if_pos hc, if_pos hc]
        exact ih.2
      · rw [if_neg hc, if_neg hc]
        have h := ih.1 [c]
        simpa using h

lemma getLastD_nil_map (f : Char → Char) (l : List (List Char)) :
    (l.map (List.map f)).getLastD [] = (l.getLastD []).map f := by
  rw [List.getLastD_eq_getLast?, List.getLastD_eq_getLast?, List.getLast?_map]
  cases h : l.getLast? with
  | none => rfl
  | some x => rfl

lemma lastWord_lower (t : List Char) :
    stripTrailingPunct ((splitWs (t.map jsToLower)).getLastD [])
      = (stripTrailingPunct (lastWsToken t)).map jsToLower := by
  have h1 : splitWs (t.map jsToLower) = (splitWs t).map (List.map jsToLower) := by
    have h := (splitWs_parts_map jsToLower isJsSpace_jsToLower t).1 []
    simpa [splitWs] using h
  rw [h1, getLastD_nil_map, ← stripTrailingPunct_map_lower]
  rfl

/-- C7: `shouldHoldAdvance` returns true exactly when the specification's
hold condition applies: always for an empty or whitespace-only string, and
for a filled string iff the trimmed text's last character is a configured
continuation character, or its last whitespace-delimited token with
trailing punctuation stripped case-insensitively equals a configured
continuation word or a learned word. -/
theorem c7_should_hold_advance_iff (cfg : FieldAdvCfg) (text : List Char) :
    shouldHoldAdvance cfg text = true ↔ holdSpec cfg text := by
  by_cases h0 : text.isEmpty
  · have ht : trimJs text = [] := by
      rw [List.isEmpty_iff] at h0
      subst h0
      rfl
    simp [shouldHoldAdvance, holdSpec, h0, ht]
  · by_cases h1 : (trimJs text).isEmpty
    · have ht := List.isEmpty_iff.mp h1
      simp [shouldHoldAdvance, holdSpec, h0, h1, ht]
    · have htne := List.isEmpty_iff.not.mp (by simpa using h1)
      have hlast := lastWord_lower (trimJs text)
      have hL : shouldHoldAdvance cfg text = true ↔
          (cfg.contChars.contains ((trimJs text).getLastD ' ') = true ∨
           cfg.contWords.any (fun w => w.map jsToLower
             = stripTrailingPunct ((splitWs ((trimJs text).map jsToLower)).getLastD []))
             = true ∨
           cfg.learned.any (fun w => w.map jsToLower
             = stripTrailingPunct ((splitWs ((trimJs text).map jsToLower)).getLastD []))
             = true) := by
        rw [shouldHoldAdvance]
        simp only [h0, Bool.false_eq_true, if_false, h1]
        by_cases hc : cfg.contChars.contains ((trimJs text).getLastD ' ') = true <;>
          by_cases ha1 : cfg.contWords.any (fun w => w.map jsToLower
            = stripTrailingPunct ((splitWs ((trimJs text).map jsToLower)).getLastD []))
            = true <;>
          by_cases ha2 : cfg.learned.any (fun w => w.map jsToLower
            = stripTrailingPunct ((splitWs ((trimJs text).map jsToLower)).getLastD []))
            = true <;>
        simp [hc, ha1, ha2]
      rw [hL, holdSpec]
      constructor
      · rintro (hc | ha | ha)
        · exact Or.inr (Or.inl (List.elem_iff.mp hc))
        · obtain ⟨w, hw, he⟩ := List.any_eq_true.mp ha
          rw [hlast] at he
          exact Or.inr (Or.inr ⟨w, Or.inl hw,
            (decide_eq_true_eq.mp he).symm⟩)
        · obtain ⟨w, hw, he⟩ := List.any_eq_true.mp ha
          rw [hlast] at he
          exact Or.inr (Or.inr ⟨w, Or.inr hw,
            (decide_eq_true_eq.mp he).symm⟩)
      · rintro (ht | hmem | ⟨w, hw, he⟩)
        · exact absurd ht htne
        · exact Or.inl (List.elem_iff.mpr hmem)
        · rcases hw with hw | hw
          · refine Or.inr (Or.inl (List.any_eq_true.mpr ⟨w, hw, ?_⟩))
            rw [hlast]
            exact decide_eq_true_eq.mpr he.symm
          · refine Or.inr (Or.inr (List.any_eq_true.mpr ⟨w, hw, ?_⟩))
            rw [hlast]
            exact decide_eq_true_eq.mpr he.symm

/-! ### C8: findLastBlock ignores indented and placeholder lines -/

lemma splitLines_ne_nil (l : List Char) : splitLines l ≠ [] := by
  induction l with
  | nil => simp [splitLines]
  | cons c rest ih =>
    rw [splitLines]
    by_cases hc : c = '\n'
    · simp [hc]
    · rw [if_neg hc]
      cases h : splitLines rest with
      | nil => exact absurd h ih
      | cons a as => simp

lemma splitLines_append (p r : List Char) :
    splitLines (p ++ '\n' :: r) = splitLines p ++ splitLines r := by
  induction p with
  | nil => simp [splitLines]
  | cons c p ih =>
    by_cases hc : c = '\n'
    · subst hc
      rw [List.cons_append, splitLines, if_pos rfl, ih]
      conv_rhs => rw [splitLines, if_pos rfl]
      rfl
    · rw [List.cons_append, splitLines, if_neg hc, ih]
      conv_rhs => rw [splitLines, if_neg hc]
      cases h : splitLines p with
      | nil => exact absurd h (splitLines_ne_nil p)
      | cons a as => simp [h]

lemma splitLines_no_nl (x : List Char) (hx : '\n' ∉ x) : splitLines x = [x] := by
  induction x with
  | nil => rfl
  | cons c rest ih =>
    rw [splitLines, if_neg (fun h => hx (by simp [h]))]
    rw [ih (fun h => hx (by simp [h]))]

lemma findLastBlockRev_map_fst (fmt : Format) :
    ∀ (ls : List (List Char)) (i j : Nat),
      (findLastBlockRev fmt ls i).map Prod.fst
        = (findLastBlockRev fmt ls j).map Prod.fst := by
  intro ls
  induction ls with
  | nil => intro i j; rfl
  | cons l rest ih =>
    intro i j
    rw [findLastBlockRev, findLastBlockRev]
    by_cases h1 : startsIndented l
    · rw [if_pos h1, if_pos h1]
      exact ih _ _
    · rw [if_neg h1, if_neg h1]
      by_cases h2 : isPlaceholderLine l
      · rw [if_pos h2, if_pos h2]
        exact ih _ _
      · rw [if_neg h2, if_neg h2]
        cases h : parseBlockLine fmt l with
        | some p => simp [h]
        | none =>
          simp only [h]
          exact ih _ _

lemma findLastBlockRev_skip (fmt : Format) (x : List Char)
    (hx : startsIndented x = true ∨ isPlaceholderLine x = true) :
    ∀ (l1 l2 : List (List Char)) (i j : Nat),
      (findLastBlockRev fmt (l1 ++ x :: l2) i).map Prod.fst
        = (findLastBlockRev fmt (l1 ++ l2) j).map Prod.fst := by
  intro l1
  induction l1 with
  | nil =>
    intro l2 i j
    simp only [List.nil_append]
    rw [findLastBlockRev]
    by_cases h1 : startsIndented x
    · rw [if_pos h1]
      exact findLastBlockRev_map_fst fmt l2 _ _
    · rcases hx with h | h
      · exact absurd h h1
      · rw [if_neg h1, if_pos h]
        exact findLastBlockRev_map_fst fmt l2 _ _
  | cons a l1 ih =>
    intro l2 i j
    simp only [List.cons_append]
    rw [findLastBlockRev, findLastBlockRev]
    by_cases h1 : startsIndented a
    · rw [if_pos h1, if_pos h1]
      exact ih _ _ _
    · rw [if_neg h1, if_neg h1]
      by_cases h2 : isPlaceholderLine a
      · rw [if_pos h2, if_pos h2]
        exact ih _ _ _
      · rw [if_neg h2, if_neg h2]
        cases h : parseBlockLine fmt a with
        | some p => simp [h]
        | none =>
          simp only [h]
          exact ih _ _ _

/-- C8: the parsed block returned by `findLastBlock` does not change when
an indented line or a placeholder line is inserted (equivalently, removed)
between the scan position and the nearest preceding real block — the
backward scan skips exactly those lines. -/
theorem c8_find_last_block_invariance (fmt : Format) (p x r : List Char)
    (hnl : '\n' ∉ x)
    (hx : startsIndented x = true ∨ isPlaceholderLine x = true) :
    (findLastBlock fmt (p ++ '\n' :: (x ++ '\n' :: r))).map Prod.fst
      = (findLastBlock fmt (p ++ '\n' :: r)).map Prod.fst := by
  simp only [findLastBlock]
  rw [splitLines_append p (x ++ '\n' :: r), splitLines_append x r,
    splitLines_no_nl x hnl, splitLines_append p r]
  rw [List.reverse_append, List.reverse_append, List.reverse_append]
  simp only [List.reverse_cons, List.reverse_nil, List.nil_append, List.append_assoc,
    List.singleton_append]
  exact findLastBlockRev_skip fmt x hx (splitLines r).reverse (splitLines p).reverse _ _

/-- Witness for C8: inserting the placeholder line `"[_]-"` between the
cursor and the block line `"A1-t"` leaves the found block unchanged. -/
theorem c8_find_last_block_witness :
    (findLastBlock .ln (['A', '1', '-', 't'] ++ '\n' ::
        (['[', '_', ']', '-'] ++ '\n' :: []))).map Prod.fst
      = (findLastBlock .ln (['A', '1', '-', 't'] ++ '\n' :: [])).map Prod.fst :=
  c8_find_last_block_invariance .ln ['A', '1', '-', 't'] ['[', '_', ']', '-'] []
    (by decide) (Or.inr (by decide))

/-! ### The history tape: cap-loop lemmas -/

lemma capTapeFuel_of_le (fuel : Nat) (t : List HistEntry) (i : Int)
    (h : t.length ≤ MAX_HISTORY) : capTapeFuel fuel t i = (t, i) := by
  cases fuel with
  | zero => rfl
  | succ n => rw [capTapeFuel, if_neg (by omega)]

lemma capTapeFuel_length_le (fuel : Nat) :
    ∀ (t : List HistEntry) (i : Int), t.length ≤ MAX_HISTORY + fuel →
      (capTapeFuel fuel t i).1.length ≤ MAX_HISTORY := by
  induction fuel with
  | zero =>
    intro t i h
    simpa using h
  | succ n ih =>
    intro t i h
    rw [capTapeFuel]
    by_cases hgt : t.length > MAX_HISTORY
    · rw [if_pos hgt]
      refine ih _ _ ?_
      rw [List.length_tail]
      omega
    · rw [if_neg hgt]
      simpa using (by omega : t.length ≤ MAX_HISTORY)

lemma capTapeFuel_drop (fuel : Nat) :
    ∀ (t : List HistEntry) (i : Int),
      ∃ k : Nat, k ≤ t.length ∧ capTapeFuel fuel t i = (t.drop k, i - k) := by
  induction fuel with
  | zero =>
    intro t i
    refine ⟨0, Nat.zero_le _, ?_⟩
    simp [capTapeFuel]
  | succ n ih =>
    intro t i
    rw [capTapeFuel]
    by_cases hgt : t.length > MAX_HISTORY
    · rw [if_pos hgt]
      obtain ⟨k, hk, he⟩ := ih t.tail (i - 1)
      refine ⟨k + 1, ?_, ?_⟩
      · have := List.length_tail t
        omega
      · have hint : i - 1 - (k : Int) = i - ((k + 1 : Nat) : Int) := by
          push_cast
          ring
        rw [he, ← List.drop_one, List.drop_drop, Nat.add_comm 1 k, hint]
    · rw [if_neg hgt]
      refine ⟨0, Nat.zero_le _, ?_⟩
      simp
  
lemma capTapeFuel_ne_nil (fuel : Nat) :
    ∀ (t : List HistEntry) (i : Int), t ≠ [] → (capTapeFuel fuel t i).1 ≠ [] := by
  induction fuel with
  | zero =>
    intro t i h
    simpa using h
  | succ n ih =>
    intro t i h
    rw [capTapeFuel]
    by_cases hgt : t.length > MAX_HISTORY
    · rw [if_pos hgt]
      refine ih _ _ ?_
      have h500 : t.length > 500 := hgt
      intro he
      have hlen := congrArg List.length he
      rw [List.length_tail] at hlen
      simp only [List.length_nil] at hlen
      omega
    · rw [if_neg hgt]
      simpa using h

lemma capTapeFuel_getLast (fuel : Nat) :
    ∀ (t : List HistEntry) (i : Int) (e : HistEntry), t.getLast? = some e →
      (capTapeFuel fuel t i).1.getLast? = some e := by
  induction fuel with
  | zero =>
    intro t i e h
    simpa using h
  | succ n ih =>
    intro t i e h
    rw [capTapeFuel]
    by_cases hgt : t.length > MAX_HISTORY
    · rw [if_pos hgt]
      refine ih _ _ _ ?_
      have h500 : t.length > 500 := hgt
      cases t with
      | nil => simp at h500
      | cons a rest =>
        cases rest with
        | nil => simp at h500
        | cons b rest2 =>
          rw [List.getLast?_cons_cons] at h
          exact h
    · rw [if_neg hgt]
      simpa using h

lemma capTapeFuel_idx (fuel : Nat) :
    ∀ (t : List HistEntry) (i : Int), i = (t.length : Int) - 1 →
      (capTapeFuel fuel t i).2 = ((capTapeFuel fuel t i).1.length : Int) - 1 := by
  induction fuel with
  | zero =>
    intro t i h
    simpa using h
  | succ n ih =>
    intro t i h
    rw [capTapeFuel]
    by_cases hgt : t.length > MAX_HISTORY
    · rw [if_pos hgt]
      refine ih _ _ ?_
      rw [List.length_tail]
      have h500 : t.length > 500 := hgt
      omega
    · rw [if_neg hgt]
      simpa using h

/-! ### C4 and C10: recordSnapshot invariants, index invariant -/

lemma histInv_mk (tape : List HistEntry) (idx : Int) (b : Bool)
    (h1 : -1 ≤ idx) (h2 : idx < (tape.length : Int)) (h3 : idx = -1 ↔ tape = []) :
    HistInv { tape := tape, idx := idx, restoring := b } := ⟨h1, h2, h3⟩

lemma histInv_recordSnapshot (now : Nat) (label : String) (curText : List Char)
    (st : HistState) (h : HistInv st) :
    HistInv (recordSnapshot now label curText st) := by
  simp only [recordSnapshot]
  by_cases hr : st.restoring
  · rw [if_pos hr]
    exact h
  · rw [if_neg hr]
    by_cases hd : dedupeHit st curText
    · rw [if_pos hd]
      exact h
    · rw [if_neg hd]
      set tape1 := if st.idx < (st.tape.length : Int) - 1
        then st.tape.take (st.idx + 1).toNat else st.tape with ht1
      set tape2 := tape1 ++ [{ text := curText, timestamp := now, label := label }] with ht2
      have hne : tape2 ≠ [] := by simp [ht2]
      unfold capTape
      have hidx := capTapeFuel_idx tape2.length tape2 ((tape2.length : Int) - 1) rfl
      have hnn := capTapeFuel_ne_nil tape2.length tape2 ((tape2.length : Int) - 1) hne
      have hpos := List.length_pos.mpr hnn
      refine histInv_mk _ _ _ ?_ ?_ ?_
      · rw [hidx]
        omega
      · rw [hidx]
        omega
      · rw [hidx]
        exact ⟨fun he => absurd he (by omega), fun he => absurd he hnn⟩

/-- C10: every history-tape operation preserves the index invariant
`-1 ≤ idx < length` with `idx = -1` exactly on the empty tape; moreover a
successful undo leaves the index nonnegative, a successful redo leaves it
at most `length - 1`, and `restoreHistoryEntry` is the identity on
out-of-range indices. -/
theorem c10_history_index_invariant (st : HistState) (buf : Buffer) (now : Nat)
    (label : String) (i : Int) (h : HistInv st) :
    HistInv (recordSnapshot now label buf.text st) ∧
    HistInv (undoAction buf now st).1 ∧
    ((undoAction buf now st).2.2 = true → 0 ≤ (undoAction buf now st).1.idx) ∧
    HistInv (redoAction buf st).1 ∧
    ((redoAction buf st).2.2 = true → (redoAction buf st).1.idx ≤ (st.tape.length : Int) - 1) ∧
    HistInv (restoreHistoryEntry i buf st).1 ∧
    (i < 0 ∨ (st.tape.length : Int) ≤ i → restoreHistoryEntry i buf st = (st, buf)) := by
  have hInv1 : HistInv (preUndoState buf now st) := by
    rw [preUndoState]
    by_cases hdiv : undoDiverged st buf.text
    · rw [if_pos hdiv]
      exact histInv_recordSnapshot _ _ _ _ h
    · rw [if_neg hdiv]
      exact h
  have hundo : HistInv (undoAction buf now st).1 ∧
      ((undoAction buf now st).2.2 = true → 0 ≤ (undoAction buf now st).1.idx) := by
    obtain ⟨ha, hb, hc⟩ := hInv1
    simp only [undoAction]
    by_cases hle : (preUndoState buf now st).idx ≤ 0
    · rw [if_pos hle]
      exact ⟨⟨ha, hb, hc⟩, fun hbool => by simp at hbool⟩
    · rw [if_neg hle]
      have hInv2 : HistInv ⟨(preUndoState buf now st).tape,
          (preUndoState buf now st).idx - 1, (preUndoState buf now st).restoring⟩ := by
        refine histInv_mk _ _ _ (by omega) (by omega) ?_
        refine ⟨fun he => absurd he (by omega), fun he => ?_⟩
        exact absurd (hc.mpr he) (by omega)
      cases h2 : (preUndoState buf now st).tape.get?
          ((preUndoState buf now st).idx - 1).toNat with
      | some e =>
        simp only [h2]
        exact ⟨hInv2, fun _ => by omega⟩
      | none =>
        simp only [h2]
        exact ⟨hInv2, fun _ => by omega⟩
  have hredo : HistInv (redoAction buf st).1 ∧
      ((redoAction buf st).2.2 = true →
        (redoAction buf st).1.idx ≤ (st.tape.length : Int) - 1) := by
    obtain ⟨ha, hb, hc⟩ := h
    rw [redoAction]
    by_cases hge : (st.tape.length : Int) - 1 ≤ st.idx
    · rw [if_pos hge]
      exact ⟨⟨ha, hb, hc⟩, fun hbool => by simp at hbool⟩
    · rw [if_neg hge]
      have hInv2 : HistInv ⟨st.tape, st.idx + 1, st.restoring⟩ := by
        refine histInv_mk _ _ _ (by omega) (by omega) ?_
        refine ⟨fun he => absurd he (by omega), fun he => ?_⟩
        have hlen : st.tape.length = 0 := by
          rw [he]
          rfl
        omega
      cases h2 : st.tape.get? (st.idx + 1).toNat with
      | some e =>
        simp only [h2]
        exact ⟨hInv2, fun _ => by omega⟩
      | none =>
        simp only [h2]
        exact ⟨hInv2, fun _ => by omega⟩
  have hrest : HistInv (restoreHistoryEntry i buf st).1 ∧
      (i < 0 ∨ (st.tape.length : Int) ≤ i → restoreHistoryEntry i buf st = (st, buf)) := by
    obtain ⟨ha, hb, hc⟩ := h
    rw [restoreHistoryEntry]
    by_cases hout : i < 0 ∨ (st.tape.length : Int) ≤ i
    · rw [if_pos hout]
      exact ⟨⟨ha, hb, hc⟩, fun _ => rfl⟩
    · rw [if_neg hout]
      push_neg at hout
      have hInv2 : HistInv { tape := st.tape, idx := i, restoring := st.restoring } := by
        refine histInv_mk _ _ _ (by omega) (by omega) ?_
        refine ⟨fun he => absurd he (by omega), fun he => ?_⟩
        have hlen : st.tape.length = 0 := by
          rw [he]
          rfl
        omega
      cases h2 : st.tape.get? i.toNat with
      | some e =>
        simp only [h2]
        exact ⟨hInv2, fun hcon => absurd hcon (by omega)⟩
      | none =>
        simp only [h2]
        exact ⟨hInv2, fun hcon => absurd hcon (by omega)⟩
  exact ⟨histInv_recordSnapshot _ _ _ _ h, hundo.1, hundo.2, hredo.1, hredo.2,
    hrest.1, hrest.2⟩

/-- Witness for C10 on a one-entry tape. -/
theorem c10_history_index_witness :
    HistInv (recordSnapshot 1 preUndoLabel ['b']
      { tape := [{ text := ['a'], timestamp := 0, label := preUndoLabel }],
        idx := 0, restoring := false }) :=
  (c10_history_index_invariant
    { tape := [{ text := ['a'], timestamp := 0, label := preUndoLabel }],
      idx := 0, restoring := false }
    { text := ['b'], selStart := 1, selEnd := 1 } 1 preUndoLabel 0
    (by unfold HistInv; decide)).1

/-- C4: `recordSnapshot` (outside a restore) (a) discards the redo branch —
when the index is not at the tape's end the result is exactly the kept
prefix plus the new snapshot; (b) is the identity when the current text
equals the entry at the index; (c) keeps the tape within the 500-entry cap,
evicting oldest entries while the index keeps addressing the new snapshot
at the tape's end. -/
theorem c4_record_snapshot_invariants (st : HistState) (curText : List Char)
    (now : Nat) (label : String)
    (hres : st.restoring = false) (hinv : HistInv st)
    (hcap : st.tape.length ≤ MAX_HISTORY) :
    (dedupeHit st curText → recordSnapshot now label curText st = st) ∧
    (¬ dedupeHit st curText → st.idx < (st.tape.length : Int) - 1 →
      recordSnapshot now label curText st =
        { tape := st.tape.take (st.idx + 1).toNat ++ [HistEntry.mk curText now label],
          idx := ((st.tape.take (st.idx + 1).toNat).length : Int),
          restoring := false }) ∧
    (recordSnapshot now label curText st).tape.length ≤ MAX_HISTORY ∧
    (¬ dedupeHit st curText →
      ∃ k : Nat,
        (recordSnapshot now label curText st).tape
          = ((if st.idx < (st.tape.length : Int) - 1
              then st.tape.take (st.idx + 1).toNat else st.tape)
             ++ [HistEntry.mk curText now label]).drop k ∧
        (recordSnapshot now label curText st).idx
          = (((recordSnapshot now label curText st).tape.length : Int)) - 1 ∧
        (recordSnapshot now label curText st).tape.getLast?
          = some { text := curText, timestamp := now, label := label }) := by
  obtain ⟨hia, hib, hic⟩ := hinv
  have hrfalse : ¬ (st.restoring = true) := by
    rw [hres]
    exact Bool.false_ne_true
  refine ⟨?_, ?_, ?_, ?_⟩
  · intro hd
    simp only [recordSnapshot]
    rw [if_neg hrfalse, if_pos hd]
  · intro hd hlt
    simp only [recordSnapshot]
    rw [if_neg hrfalse, if_neg hd, if_pos hlt]
    unfold capTape
    have htk2 := List.length_take (st.idx + 1).toNat st.tape
    have hlen2 : (st.tape.take (st.idx + 1).toNat
        ++ [HistEntry.mk curText now label]).length ≤ MAX_HISTORY := by
      rw [List.length_append]
      simp only [List.length_singleton]
      omega
    rw [capTapeFuel_of_le _ _ _ hlen2, hres]
    simp only [HistState.mk.injEq]
    refine ⟨trivial, ?_, trivial⟩
    simp only [List.length_append, List.length_singleton]
    push_cast
    ring
  · simp only [recordSnapshot]
    by_cases hr : st.restoring = true
    · rw [if_pos hr]
      exact hcap
    · rw [if_neg hr]
      by_cases hd : dedupeHit st curText
      · rw [if_pos hd]
        exact hcap
      · rw [if_neg hd]
        unfold capTape
        exact capTapeFuel_length_le _ _ _ (by omega)
  · intro hd
    simp only [recordSnapshot]
    rw [if_neg hrfalse, if_neg hd]
    unfold capTape
    set tape1 := if st.idx < (st.tape.length : Int) - 1
      then st.tape.take (st.idx + 1).toNat else st.tape with ht1
    set snap : HistEntry := { text := curText, timestamp := now, label := label } with hsnap
    obtain ⟨k, hk, he⟩ := capTapeFuel_drop (tape1 ++ [snap]).length (tape1 ++ [snap])
      (((tape1 ++ [snap]).length : Int) - 1)
    have hidx := capTapeFuel_idx (tape1 ++ [snap]).length (tape1 ++ [snap])
      (((tape1 ++ [snap]).length : Int) - 1) rfl
    have hlast := capTapeFuel_getLast (tape1 ++ [snap]).length (tape1 ++ [snap])
      (((tape1 ++ [snap]).length : Int) - 1) snap (List.getLast?_concat _)
    refine ⟨k, ?_, ?_, ?_⟩
    · rw [he]
    · exact hidx
    · exact hlast

/-- Witness for C4: recording text `"a"` on the empty tape. -/
theorem c4_record_snapshot_witness :
    ∃ k : Nat,
      (recordSnapshot 0 preUndoLabel ['a'] { tape := [], idx := -1, restoring := false }).tape
        = ((if (-1 : Int) < (([] : List HistEntry).length : Int) - 1
            then ([] : List HistEntry).take ((-1 : Int) + 1).toNat else ([] : List HistEntry))
           ++ [HistEntry.mk ['a'] 0 preUndoLabel]).drop k ∧
      (recordSnapshot 0 preUndoLabel ['a'] { tape := [], idx := -1, restoring := false }).idx
        = (((recordSnapshot 0 preUndoLabel ['a']
              { tape := [], idx := -1, restoring := false }).tape.length : Int)) - 1 ∧
      (recordSnapshot 0 preUndoLabel ['a']
          { tape := [], idx := -1, restoring := false }).tape.getLast?
        = some { text := ['a'], timestamp := 0, label := preUndoLabel } :=
  (c4_record_snapshot_invariants { tape := [], idx := -1, restoring := false } ['a']
    0 preUndoLabel rfl (by unfold HistInv; decide) (by decide)).2.2.2
    (by unfold dedupeHit; decide)

/-! ### C5: undo and redo -/

/-- C5: `undoAction` first records the live buffer under the `pre-undo`
label whenever it diverges from the entry at the index (or the tape is
empty); then, when the index is not at the tape's start, it decrements the
index and restores that entry into the buffer with the caret at the end of
the restored text, returning true; at the tape's start it returns false
and leaves the buffer untouched.  `redoAction` symmetrically reports
nothing-to-redo at the tape's end and otherwise increments the index and
restores. -/
theorem c5_undo_redo_behavior (st : HistState) (buf : Buffer) (now : Nat)
    (hinv : HistInv st) (hres : st.restoring = false) :
    (undoDiverged st buf.text →
      (preUndoState buf now st).tape.getLast?
          = some { text := buf.text, timestamp := now, label := preUndoLabel } ∧
      (undoAction buf now st).1.tape = (preUndoState buf now st).tape) ∧
    ((preUndoState buf now st).idx ≤ 0 →
      undoAction buf now st = (preUndoState buf now st, buf, false)) ∧
    (0 < (preUndoState buf now st).idx →
      ∃ e, (preUndoState buf now st).tape.get?
            ((preUndoState buf now st).idx - 1).toNat = some e ∧
        undoAction buf now st =
          ({ tape := (preUndoState buf now st).tape,
             idx := (preUndoState buf now st).idx - 1,
             restoring := (preUndoState buf now st).restoring },
           { text := e.text, selStart := e.text.length, selEnd := e.text.length },
           true)) ∧
    ((st.tape.length : Int) - 1 ≤ st.idx → redoAction buf st = (st, buf, false)) ∧
    (st.idx < (st.tape.length : Int) - 1 →
      ∃ e, st.tape.get? (st.idx + 1).toNat = some e ∧
        redoAction buf st =
          ({ tape := st.tape, idx := st.idx + 1, restoring := st.restoring },
           { text := e.text, selStart := e.text.length, selEnd := e.text.length },
           true)) := by
  have hInv1 : HistInv (preUndoState buf now st) := by
    rw [preUndoState]
    by_cases hdiv : undoDiverged st buf.text
    · rw [if_pos hdiv]
      exact histInv_recordSnapshot _ _ _ _ hinv
    · rw [if_neg hdiv]
      exact hinv
  have hrfalse : ¬ (st.restoring = true) := by
    rw [hres]
    exact Bool.false_ne_true
  refine ⟨?_, ?_, ?_, ?_, ?_⟩
  · intro hdiv
    have hded : ¬ dedupeHit st buf.text := by
      rintro ⟨h1, h2⟩
      rcases hdiv with h3 | h3
      · omega
      · exact h3 h2
    constructor
    · rw [preUndoState, if_pos hdiv]
      simp only [recordSnapshot]
      rw [if_neg hrfalse, if_neg hded]
      unfold capTape
      exact capTapeFuel_getLast _ _ _ _ (List.getLast?_concat _)
    · simp only [undoAction]
      by_cases hle : (preUndoState buf now st).idx ≤ 0
      · rw [if_pos hle]
      · rw [if_neg hle]
        cases h2 : (preUndoState buf now st).tape.get?
            ((preUndoState buf now st).idx - 1).toNat with
        | some e => simp only [h2]
        | none => simp only [h2]
  · intro hle
    simp only [undoAction]
    rw [if_pos hle]
  · intro hpos
    obtain ⟨ha, hb, hc⟩ := hInv1
    cases h2 : (preUndoState buf now st).tape.get?
        ((preUndoState buf now st).idx - 1).toNat with
    | none =>
      rw [List.get?_eq_none] at h2
      omega
    | some e =>
      refine ⟨e, rfl, ?_⟩
      simp only [undoAction]
      rw [if_neg (by omega)]
      simp only [h2]
      rfl
  · intro hge
    rw [redoAction, if_pos hge]
  · intro hlt
    obtain ⟨ha, hb, hc⟩ := hinv
    cases h2 : st.tape.get? (st.idx + 1).toNat with
    | none =>
      rw [List.get?_eq_none] at h2
      omega
    | some e =>
      refine ⟨e, rfl, ?_⟩
      rw [redoAction, if_neg (by omega)]
      simp only [h2]
      rfl

/-- Witness for C5: undo on the empty tape records a pre-undo snapshot and
reports nothing-to-undo; redo at the tape's end reports nothing-to-redo. -/
theorem c5_undo_redo_witness :
    undoAction { text := [], selStart := 0, selEnd := 0 } 0
        { tape := [], idx := -1, restoring := false }
      = (preUndoState { text := [], selStart := 0, selEnd := 0 } 0
          { tape := [], idx := -1, restoring := false },
         { text := [], selStart := 0, selEnd := 0 }, false) ∧
    redoAction { text := [], selStart := 0, selEnd := 0 }
        { tape := [], idx := -1, restoring := false }
      = ({ tape := [], idx := -1, restoring := false },
         { text := [], selStart := 0, selEnd := 0 }, false) :=
  ⟨(c5_undo_redo_behavior { tape := [], idx := -1, restoring := false }
      { text := [], selStart := 0, selEnd := 0 } 0
      (by unfold HistInv; decide) rfl).2.1 (by decide),
   (c5_undo_redo_behavior { tape := [], idx := -1, restoring := false }
      { text := [], selStart := 0, selEnd := 0 } 0
      (by unfold HistInv; decide) rfl).2.2.2.1 (by decide)⟩

/-! ### C6: field enumeration and navigation -/

lemma findClose_some : ∀ (l : List Char) (k : Nat), findClose l = some k →
    k < l.length ∧ l[k]? = some ']' ∧ ∀ j : Nat, j < k → l[j]? ≠ some ']' := by
  intro l
  induction l with
  | nil =>
    intro k h
    exact Option.noConfusion (show (none : Option Nat) = some k from h)
  | cons c rest ih =>
    intro k h
    rw [findClose] at h
    by_cases hc : c = ']'
    · rw [if_pos hc] at h
      have hk : k = 0 := by
        simpa using h.symm
      subst hk
      refine ⟨by simp, by simp [hc], ?_⟩
      intro j hj
      omega
    · rw [if_neg hc] at h
      cases hr : findClose rest with
      | none =>
        rw [hr] at h
        simp at h
      | some k0 =>
        rw [hr] at h
        have hke : k = k0 + 1 := by
          simpa using h.symm
        obtain ⟨h1, h2, h3⟩ := ih k0 hr
        subst hke
        refine ⟨by simp; omega, ?_, ?_⟩
        · rw [List.getElem?_cons_succ]
          exact h2
        · intro j hj
          cases j with
          | zero =>
            simp only [List.getElem?_cons_zero]
            exact fun he => hc (Option.some.inj he)
          | succ j0 =>
            rw [List.getElem?_cons_succ]
            exact h3 j0 (by omega)

lemma findClose_none : ∀ (l : List Char), findClose l = none →
    ∀ j : Nat, l[j]? ≠ some ']' := by
  intro l
  induction l with
  | nil =>
    intro _ j
    simp
  | cons c rest ih =>
    intro h j
    rw [findClose] at h
    by_cases hc : c = ']'
    · rw [if_pos hc] at h
      simp at h
    · rw [if_neg hc] at h
      cases hr : findClose rest with
      | some k =>
        rw [hr] at h
        simp at h
      | none =>
        cases j with
        | zero =>
          simp only [List.getElem?_cons_zero]
          exact fun he => hc (Option.some.inj he)
        | succ j0 =>
          rw [List.getElem?_cons_succ]
          exact ih hr j0

lemma findAllFieldsAux_cons_open (fuel : Nat) (c : Char) (rest : List Char) (i k : Nat)
    (hc : c = '[') (hk : findClose rest = some k) :
    findAllFieldsAux (fuel + 1) (c :: rest) i
      = ⟨i, i + k + 2⟩ :: findAllFieldsAux fuel (rest.drop (k + 1)) (i + k + 2) := by
  rw [findAllFieldsAux, if_pos hc, hk]

lemma findAllFieldsAux_cons_open_none (fuel : Nat) (c : Char) (rest : List Char) (i : Nat)
    (hc : c = '[') (hk : findClose rest = none) :
    findAllFieldsAux (fuel + 1) (c :: rest) i = [] := by
  rw [findAllFieldsAux, if_pos hc, hk]

lemma findAllFieldsAux_cons_other (fuel : Nat) (c : Char) (rest : List Char) (i : Nat)
    (hc : ¬ c = '[') :
    findAllFieldsAux (fuel + 1) (c :: rest) i = findAllFieldsAux fuel rest (i + 1) := by
  rw [findAllFieldsAux, if_neg hc]

lemma findAllFieldsAux_shift : ∀ (n : Nat) (l : List Char) (i : Nat),
    findAllFieldsAux n l i
      = (findAllFieldsAux n l 0).map (fun f => ⟨f.start + i, f.stop + i⟩) := by
  intro n
  induction n with
  | zero =>
    intro l i
    rfl
  | succ n ih =>
    intro l i
    cases l with
    | nil => rfl
    | cons c rest =>
      by_cases hc : c = '['
      · cases hk : findClose rest with
        | some k =>
          rw [findAllFieldsAux_cons_open n c rest i k hc hk,
            findAllFieldsAux_cons_open n c rest 0 k hc hk,
            ih (rest.drop (k + 1)) (i + k + 2), ih (rest.drop (k + 1)) (0 + k + 2)]
          rw [List.map_cons, List.map_map]
          congr 1
          · simp only [PlaceholderField.mk.injEq]
            omega
          · refine List.map_eq_map_iff.mpr ?_
            intro f _
            simp only [Function.comp_apply, PlaceholderField.mk.injEq]
            omega
        | none =>
          rw [findAllFieldsAux_cons_open_none n c rest i hc hk,
            findAllFieldsAux_cons_open_none n c rest 0 hc hk]
          rfl
      · rw [findAllFieldsAux_cons_other n c rest i hc,
          findAllFieldsAux_cons_other n c rest 0 hc,
          ih rest (i + 1), ih rest (0 + 1)]
        rw [List.map_map]
        refine List.map_eq_map_iff.mpr ?_
        intro f _
        simp only [Function.comp_apply, PlaceholderField.mk.injEq]
        omega

lemma findAllFieldsAux_sound : ∀ (n : Nat) (l : List Char),
    ∀ f ∈ findAllFieldsAux n l 0,
      f.start < f.stop ∧ f.stop ≤ l.length ∧ l[f.start]? = some '[' ∧
      l[f.stop - 1]? = some ']' ∧
      ∀ j : Nat, f.start < j → j < f.stop - 1 → l[j]? ≠ some ']' := by
  intro n
  induction n with
  | zero =>
    intro l f hf
    simp [findAllFieldsAux] at hf
  | succ n ih =>
    intro l f hf
    cases l with
    | nil => simp [findAllFieldsAux] at hf
    | cons c rest =>
      by_cases hc : c = '['
      · cases hk : findClose rest with
        | some k =>
          obtain ⟨hk1, hk2, hk3⟩ := findClose_some rest k hk
          rw [findAllFieldsAux_cons_open n c rest 0 k hc hk,
            findAllFieldsAux_shift n (rest.drop (k + 1)) (0 + k + 2)] at hf
          rcases List.mem_cons.mp hf with hf | hf
          · subst hf
            refine ⟨by show 0 < 0 + k + 2; omega,
              by show 0 + k + 2 ≤ (c :: rest).length; simp; omega, ?_, ?_, ?_⟩
            · show (c :: rest)[0]? = some '['
              simp [hc]
            · show (c :: rest)[0 + k + 2 - 1]? = some ']'
              rw [show 0 + k + 2 - 1 = k + 1 from by omega, List.getElem?_cons_succ]
              exact hk2
            · intro j hj1 hj2
              show (c :: rest)[j]? ≠ some ']'
              have hj1' : 0 < j := hj1
              have hj2' : j < 0 + k + 2 - 1 := hj2
              rw [show j = (j - 1) + 1 from by omega, List.getElem?_cons_succ]
              exact hk3 (j - 1) (by omega)
          · obtain ⟨g, hg, hfg⟩ := List.mem_map.mp hf
            obtain ⟨g1, g2, g3, g4, g5⟩ := ih (rest.drop (k + 1)) g hg
            have hdl : (rest.drop (k + 1)).length = rest.length - (k + 1) :=
              List.length_drop _ _
            subst hfg
            refine ⟨by show g.start + (0 + k + 2) < g.stop + (0 + k + 2); omega,
              by show g.stop + (0 + k + 2) ≤ (c :: rest).length; simp; omega, ?_, ?_, ?_⟩
            · show (c :: rest)[g.start + (0 + k + 2)]? = some '['
              rw [show g.start + (0 + k + 2) = ((k + 1) + g.start) + 1 from by omega,
                List.getElem?_cons_succ, ← List.getElem?_drop]
              exact g3
            · show (c :: rest)[g.stop + (0 + k + 2) - 1]? = some ']'
              rw [show g.stop + (0 + k + 2) - 1 = ((k + 1) + (g.stop - 1)) + 1 from by omega,
                List.getElem?_cons_succ, ← List.getElem?_drop]
              exact g4
            · intro j hj1 hj2
              show (c :: rest)[j]? ≠ some ']'
              have hj1' : g.start + (0 + k + 2) < j := hj1
              have hj2' : j < g.stop + (0 + k + 2) - 1 := hj2
              rw [show j = ((k + 1) + (j - (k + 2))) + 1 from by omega,
                List.getElem?_cons_succ, ← List.getElem?_drop]
              exact g5 (j - (k + 2)) (by omega) (by omega)
        | none =>
          rw [findAllFieldsAux_cons_open_none n c rest 0 hc hk] at hf
          simp at hf
      · rw [findAllFieldsAux_cons_other n c rest 0 hc,
          findAllFieldsAux_shift n rest (0 + 1)] at hf
        obtain ⟨g, hg, hfg⟩ := List.mem_map.mp hf
        obtain ⟨g1, g2, g3, g4, g5⟩ := ih rest g hg
        subst hfg
        refine ⟨by show g.start + (0 + 1) < g.stop + (0 + 1); omega,
          by show g.stop + (0 + 1) ≤ (c :: rest).length; simp; omega, ?_, ?_, ?_⟩
        · show (c :: rest)[g.start + (0 + 1)]? = some '['
          rw [show g.start + (0 + 1) = g.start + 1 from by omega, List.getElem?_cons_succ]
          exact g3
        · show (c :: rest)[g.stop + (0 + 1) - 1]? = some ']'
          rw [show g.stop + (0 + 1) - 1 = (g.stop - 1) + 1 from by omega,
            List.getElem?_cons_succ]
          exact g4
        · intro j hj1 hj2
          show (c :: rest)[j]? ≠ some ']'
          have hj1' : g.start + (0 + 1) < j := hj1
          have hj2' : j < g.stop + (0 + 1) - 1 := hj2
          rw [show j = (j - 1) + 1 from by omega, List.getElem?_cons_succ]
          exact g5 (j - 1) (by omega) (by omega)

lemma findAllFieldsAux_chain : ∀ (n : Nat) (l : List Char),
    List.Chain' (fun a b => a.stop ≤ b.start) (findAllFieldsAux n l 0) := by
  intro n
  induction n with
  | zero =>
    intro l
    simp [findAllFieldsAux]
  | succ n ih =>
    intro l
    cases l with
    | nil => simp [findAllFieldsAux]
    | cons c rest =>
      by_cases hc : c = '['
      · cases hk : findClose rest with
        | some k =>
          rw [findAllFieldsAux_cons_open n c rest 0 k hc hk,
            findAllFieldsAux_shift n (rest.drop (k + 1)) (0 + k + 2)]
          rw [List.chain'_cons']
          constructor
          · intro y hy
            rw [List.head?_map] at hy
            cases hh : (findAllFieldsAux n (rest.drop (k + 1)) 0).head? with
            | none =>
              rw [hh] at hy
              simp at hy
            | some g =>
              rw [hh] at hy
              have hyg : y = ⟨g.start + (0 + k + 2), g.stop + (0 + k + 2)⟩ := by
                simpa using hy.symm
              subst hyg
              show 0 + k + 2 ≤ g.start + (0 + k + 2)
              omega
          · rw [List.chain'_map]
            refine List.Chain'.imp ?_ (ih (rest.drop (k + 1)))
            intro a b hab
            show a.stop + (0 + k + 2) ≤ b.start + (0 + k + 2)
            omega
        | none =>
          rw [findAllFieldsAux_cons_open_none n c rest 0 hc hk]
          simp
      · rw [findAllFieldsAux_cons_other n c rest 0 hc,
          findAllFieldsAux_shift n rest (0 + 1), List.chain'_map]
        refine List.Chain'.imp ?_ (ih rest)
        intro a b hab
        show a.stop + (0 + 1) ≤ b.start + (0 + 1)
        omega

lemma findAllFieldsAux_complete : ∀ (n : Nat) (l : List Char), l.length ≤ n →
    ∀ p q : Nat, p < q → l[p]? = some '[' → l[q]? = some ']' →
      ∃ f ∈ findAllFieldsAux n l 0, f.start ≤ p ∧ p < f.stop := by
  intro n
  induction n with
  | zero =>
    intro l hl p q hpq hp hq
    have hnil : l = [] := List.length_eq_zero.mp (by omega)
    subst hnil
    simp at hp
  | succ n ih =>
    intro l hl p q hpq hp hq
    cases l with
    | nil => simp at hp
    | cons c rest =>
      have hrest : rest.length ≤ n := by
        simp only [List.length_cons] at hl
        omega
      by_cases hc : c = '['
      · cases hk : findClose rest with
        | some k =>
          rw [findAllFieldsAux_cons_open n c rest 0 k hc hk]
          by_cases hple : p ≤ k + 1
          · refine ⟨⟨0, 0 + k + 2⟩, List.mem_cons_self _ _, ?_, ?_⟩
            · show (0 : Nat) ≤ p
              omega
            · show p < 0 + k + 2
              omega
          · have hp' : rest[p - 1]? = some '[' := by
              rw [show p = (p - 1) + 1 from by omega, List.getElem?_cons_succ] at hp
              exact hp
            have hq' : rest[q - 1]? = some ']' := by
              rw [show q = (q - 1) + 1 from by omega, List.getElem?_cons_succ] at hq
              exact hq
            have hpd : (rest.drop (k + 1))[p - (k + 2)]? = some '[' := by
              rw [List.getElem?_drop, show (k + 1) + (p - (k + 2)) = p - 1 from by omega]
              exact hp'
            have hqd : (rest.drop (k + 1))[q - (k + 2)]? = some ']' := by
              rw [List.getElem?_drop, show (k + 1) + (q - (k + 2)) = q - 1 from by omega]
              exact hq'
            have hdn : (rest.drop (k + 1)).length ≤ n := by
              have := List.length_drop (k + 1) rest
              omega
            obtain ⟨g, hg, hg1, hg2⟩ := ih (rest.drop (k + 1)) hdn (p - (k + 2))
              (q - (k + 2)) (by omega) hpd hqd
            refine ⟨⟨g.start + (0 + k + 2), g.stop + (0 + k + 2)⟩, ?_, ?_, ?_⟩
            · refine List.mem_cons_of_mem _ ?_
              rw [findAllFieldsAux_shift n (rest.drop (k + 1)) (0 + k + 2)]
              exact List.mem_map.mpr ⟨g, hg, rfl⟩
            · show g.start + (0 + k + 2) ≤ p
              omega
            · show p < g.stop + (0 + k + 2)
              omega
        | none =>
          exfalso
          cases q with
          | zero => omega
          | succ q0 =>
            rw [List.getElem?_cons_succ] at hq
            exact findClose_none rest hk q0 hq
      · have hp1 : 1 ≤ p := by
          by_contra hp0
          have hp00 : p = 0 := by omega
          subst hp00
          rw [List.getElem?_cons_zero] at hp
          exact hc (Option.some.inj hp)
        have hp' : rest[p - 1]? = some '[' := by
          rw [show p = (p - 1) + 1 from by omega, List.getElem?_cons_succ] at hp
          exact hp
        have hq' : rest[q - 1]? = some ']' := by
          rw [show q = (q - 1) + 1 from by omega, List.getElem?_cons_succ] at hq
          exact hq
        obtain ⟨g, hg, hg1, hg2⟩ := ih rest hrest (p - 1) (q - 1) (by omega) hp' hq'
        rw [findAllFieldsAux_cons_other n c rest 0 hc,
          findAllFieldsAux_shift n rest (0 + 1)]
        refine ⟨⟨g.start + (0 + 1), g.stop + (0 + 1)⟩, List.mem_map.mpr ⟨g, hg, rfl⟩, ?_, ?_⟩
        · show g.start + (0 + 1) ≤ p
          omega
        · show p < g.stop + (0 + 1)
          omega

/-- C6: `findAllFields` returns exactly the non-overlapping bracket spans
in left-to-right order — every returned span starts at `'['`, ends at the
first `']'` after it, consecutive spans do not overlap, and every position
`p` holding a `'[' ` with a `']'` somewhere after it is covered by some
span; `goToNextField` selects the first field starting at or after the
given offset, wraps to the first field when none qualifies, and returns
false (selecting nothing, clearing the anchor) on a buffer with no
fields. -/
theorem c6_fields_and_navigation (text : List Char) (fromPos : Nat) (adv : AdvState) :
    (∀ f ∈ findAllFields text,
      f.start < f.stop ∧ f.stop ≤ text.length ∧ text[f.start]? = some '[' ∧
      text[f.stop - 1]? = some ']' ∧
      ∀ j : Nat, f.start < j → j < f.stop - 1 → text[j]? ≠ some ']') ∧
    List.Chain' (fun a b => a.stop ≤ b.start) (findAllFields text) ∧
    (∀ p q : Nat, p < q → text[p]? = some '[' → text[q]? = some ']' →
      ∃ f ∈ findAllFields text, f.start ≤ p ∧ p < f.stop) ∧
    (findAllFields text = [] →
      goToNextField text fromPos adv
        = (none, ⟨-1, adv.watchBack, adv.timerPending⟩, false)) ∧
    (∀ t, (findAllFields text).find? (fun f => fromPos ≤ f.start) = some t →
      fromPos ≤ t.start ∧
      goToNextField text fromPos adv
        = (some (t.start, t.stop), ⟨(t.start : Int), false, false⟩, true)) ∧
    (∀ f0 fs, findAllFields text = f0 :: fs →
      (findAllFields text).find? (fun f => fromPos ≤ f.start) = none →
      goToNextField text fromPos adv
        = (some (f0.start, f0.stop), ⟨(f0.start : Int), false, false⟩, true)) := by
  refine ⟨findAllFieldsAux_sound text.length text, findAllFieldsAux_chain text.length text,
    findAllFieldsAux_complete text.length text le_rfl, ?_, ?_, ?_⟩
  · intro hnil
    simp only [goToNextField, hnil]
  · intro t ht
    constructor
    · have := List.find?_some ht
      simpa using this
    · cases hfs : findAllFields text with
      | nil =>
        rw [hfs] at ht
        simp at ht
      | cons f0 fs =>
        rw [hfs] at ht
        simp only [goToNextField, hfs, ht, Option.getD_some]
  · intro f0 fs hfs hnone
    rw [hfs] at hnone
    simp only [goToNextField, hfs, hnone, Option.getD_none]

/-- Witness for C6 on the buffer `"intro [___] middle [x] end"`: the first
field covers offset 6, navigation from inside the first field selects the
second, and navigation from past the last field wraps to the first. -/
theorem c6_fields_witness :
    (∃ f ∈ findAllFields fieldDemoText, f.start ≤ 6 ∧ 6 < f.stop) ∧
    goToNextField fieldDemoText 7 ⟨-1, false, false⟩
      = (some (19, 22), ⟨19, false, false⟩, true) ∧
    goToNextField fieldDemoText 23 ⟨-1, false, false⟩
      = (some (6, 11), ⟨6, false, false⟩, true) := by
  refine ⟨?_, ?_, ?_⟩
  · exact (c6_fields_and_navigation fieldDemoText 0 ⟨-1, false, false⟩).2.2.1 6 10
      (by decide) (by decide) (by decide)
  · exact ((c6_fields_and_navigation fieldDemoText 7 ⟨-1, false, false⟩).2.2.2.2.1
      ⟨19, 22⟩ (by decide)).2
  · exact (c6_fields_and_navigation fieldDemoText 23 ⟨-1, false, false⟩).2.2.2.2.2
      ⟨6, 11⟩ [⟨19, 22⟩] (by decide) (by decide)
